import Mathlib

/-!
Verification of the package-universe and dependency-resolver core
(`src/universe.rs` of the deb-repo repository).

The development shallowly embeds the code of `universe.rs` into Lean.
Interned identifiers are represented by the interned values themselves:
the Rust interning tables (`IdMap`) are append-only and dedup by structural
equality, so an id and its value are in bijection and every id is only ever
dereferenced.  Concretely a `NameId` is represented by the name string, an
`ArchId` by the architecture string (with the reserved `Any` variant), and a
`VersionSetId` / `VersionSetUnionId` by the `VersionSet` value(s).

Code of the repository that is not part of `src/` (the `version` crate's
Debian version ordering and range satisfaction, and the control-file parser's
`Package` accessors) is modelled from the spec, as marked in doc comments.
The external collaborators (the resolvo clause solver and petgraph's
Kosaraju SCC routine) are modelled by their documented contracts.
-/

/-- Architecture identity, from `ArchId` in `universe.rs`: variant `Any` is the
reserved id 0 and `arch s` stands for the id interned for the architecture
string `s` (the `archlist` table dedups by content, so ids and strings are in
bijection; the string `"any"` occupies index 0 and is therefore `Any`). -/
inductive ArchId where
  | any
  | arch (name : String)
deriving DecidableEq, Repr

instance : Inhabited ArchId := ⟨ArchId.any⟩

/-- The architecture satisfaction relation, from `impl Satisfies<ArchId> for
ArchId` in `universe.rs`: `Any` satisfies everything and is satisfied by
everything; two specific architectures satisfy one another iff equal. -/
def ArchId.satisfies : ArchId → ArchId → Bool
  | .any, _ => true
  | _, .any => true
  | .arch a, .arch b => a == b

/-- Result of lazily parsing one entry of a package's control field.
`err` carries the parse-error message (`ParseError` in the source). -/
inductive Parsed (α : Type) where
  | ok (val : α)
  | err (msg : String)
deriving DecidableEq, Repr

/-- The `Result::ok()` conversion used by `filter_candidates`. -/
def Parsed.toOption {α : Type} : Parsed α → Option α
  | .ok v => some v
  | .err _ => none

/-- Modelled from the spec: Debian versions support a total order; we
represent a version by a natural number. -/
abbrev DebVersion := Nat

/-- Modelled from the spec: a version range of the external `version` crate —
a Debian relation `(= v)`, `(>= v)`, `(<= v)`, `(<< v)`, `(>> v)` or no
constraint. -/
inductive VersionRange where
  | all
  | exact (v : DebVersion)
  | ge (v : DebVersion)
  | le (v : DebVersion)
  | lt (v : DebVersion)
  | gt (v : DebVersion)
deriving DecidableEq, Repr

instance : Inhabited VersionRange := ⟨VersionRange.all⟩

/-- Modelled from the spec: the `satisfies(range)` relation of the external
`version` crate on versions. -/
def versionSatisfies (v : DebVersion) : VersionRange → Bool
  | .all => true
  | .exact w => v == w
  | .ge w => w ≤ v
  | .le w => v ≤ w
  | .lt w => v < w
  | .gt w => w < v

/-- Modelled from the spec: a `Provides` declaration — a provided name with an
optional exact provided version (`ProvidedName` of the `version` crate). -/
structure Provided where
  name : String
  version : Option DebVersion
deriving DecidableEq, Repr

/-- Modelled from the spec: a `Provides` entry satisfies a range iff its
provided version, if any, satisfies the range. -/
def providedSatisfies (pv : Provided) (r : VersionRange) : Bool :=
  match pv.version with
  | some v => versionSatisfies v r
  | none => true

/-- Modelled from the spec: a parsed dependency constraint
`(optional arch qualifier, name, version range)` (`Constraint` of the
`version` crate). -/
structure Constraint where
  arch : Option String
  name : String
  range : VersionRange
deriving DecidableEq, Repr

/-- Modelled from the spec: a parsed dependency — a single constraint or a
union of alternatives (`Dependency` of the `version` crate). -/
inductive Dependency where
  | single (c : Constraint)
  | union (cs : List Constraint)
deriving DecidableEq, Repr

/-- Modelled from the spec: the per-package read-only view produced by the
control-file parser collaborator (§6.1 of the spec).  The lazily parsed
sequences (`provides`, `preDepends`, `depends`, `conflicts`, `breaks`) yield
`Parsed` values, `err` marking a per-entry parse error. -/
structure Package where
  name : String
  architecture : String
  version : DebVersion
  essential : Bool
  required : Bool
  provides : List (Parsed Provided)
  preDepends : List (Parsed Dependency)
  depends : List (Parsed Dependency)
  conflicts : List (Parsed Constraint)
  breaks : List (Parsed Constraint)
deriving DecidableEq, Repr

instance : Inhabited Package :=
  ⟨{ name := "", architecture := "", version := 0, essential := false, required := false,
     provides := [], preDepends := [], depends := [], conflicts := [], breaks := [] }⟩

/-- Modelled from the spec: `Package::provides_name(n)` — whether this package
provides name `n`, including its own name (parse-erroneous entries cannot
name-match). -/
def Package.providesName (p : Package) (n : String) : Bool :=
  p.name == n || (p.provides.filterMap Parsed.toOption).any (fun pv => pv.name == n)

/-- Modelled from the spec: `Package::full_name()` display, as in the test
scenarios (`alpha:amd64=1.0`). -/
def Package.fullName (p : Package) : String :=
  p.name ++ ":" ++ p.architecture ++ "=" ++ toString p.version

/-- A solvable is identified by its insertion index into `solvables`. -/
abbrev SolvableId := Nat

/-- An entry of the `names` table, from `struct Name` in `universe.rs`:
the display string, the solvables providing this name (directly or via
`Provides`), and the subset whose self-declared name is this and that are
essential/required. -/
structure NameEntry where
  name : String
  packages : List SolvableId
  required : List SolvableId
deriving DecidableEq, Repr

instance : Inhabited NameEntry := ⟨{ name := "", packages := [], required := [] }⟩

/-- An interned version set, from `struct VersionSet` in `universe.rs`:
`(arch, name, optional self-reference, range)`.  The name is represented by
its interned string. -/
structure VersionSet where
  arch : ArchId
  name : String
  selfref : Option SolvableId
  range : VersionRange
deriving DecidableEq, Repr

instance : Inhabited VersionSet :=
  ⟨{ arch := .any, name := "", selfref := none, range := .all }⟩

/-- A solver requirement: a single version set or an ordered union of
alternatives (resolvo's `Requirement`, with ids replaced by values). -/
inductive Requirement where
  | single (vs : VersionSet)
  | union (vss : List VersionSet)
deriving DecidableEq, Repr

/-- A concrete candidate package, from `struct Solvable` in `universe.rs`:
`(arch, name, source package-set index, parsed Package)`. -/
structure Solvable where
  arch : ArchId
  name : String
  pkgs : Nat
  package : Package
deriving DecidableEq, Repr

instance : Inhabited Solvable :=
  ⟨{ arch := .any, name := "", pkgs := 0, package := default }⟩

/-- The universe index, from `struct UniverseIndex` in `universe.rs`:
preferred arch, the solvables, the names table (insertion-ordered, dedup by
name string) and the seeded baseline requirements.  The interning tables
`version_sets` and `version_set_unions` are represented implicitly, ids
standing for their values. -/
structure UniverseIndex where
  arch : ArchId
  solvables : List Solvable
  names : List NameEntry
  required : List Requirement
deriving DecidableEq, Repr

instance : Inhabited UniverseIndex :=
  ⟨{ arch := .any, solvables := [], names := [], required := [] }⟩

/-- Indexing `solvables[id]` (the Rust indexing panics out of range; we
totalize with a default, every use in the theorems being in range). -/
def solvableOf (i : UniverseIndex) (sid : SolvableId) : Solvable :=
  i.solvables.getD sid default

/-- Lookup of a name's entry in the names table, the value-level counterpart
of indexing `names[name_id]` (the table dedups by name string, so the string
determines the entry). -/
def lookupName (names : List NameEntry) (n : String) : Option NameEntry :=
  names.find? (fun e => e.name == n)

/-- Candidates recorded under a name, from `InnerUniverse::get_candidates`:
all solvables of the name's bucket (an absent or empty bucket yields no
candidates). -/
def candidatesOf (i : UniverseIndex) (n : String) : List SolvableId :=
  match lookupName i.names n with
  | some e => e.packages
  | none => []

/-- The per-candidate test of `InnerUniverse::filter_candidates`
(`universe.rs` lines 708–729): a self-referenced candidate is always
excluded, a candidate of unsuitable arch is always excluded, and otherwise
the match predicate (own name and version, or a successfully parsed
`Provides` entry) is XOR-ed with `inverse`.  `names[vs.name].name` is the
name string itself under the value-level representation of ids. -/
def matchCandidate (i : UniverseIndex) (vs : VersionSet) (inverse : Bool)
    (sid : SolvableId) : Bool :=
  let solvable := solvableOf i sid
  if some sid == vs.selfref then false
  else if !(solvable.arch.satisfies vs.arch) then false
  else
    Bool.xor
      ((solvable.name == vs.name && versionSatisfies solvable.package.version vs.range) ||
        (solvable.package.provides.filterMap Parsed.toOption).any
          (fun pv => pv.name == vs.name && providedSatisfies pv vs.range))
      inverse

/-- `InnerUniverse::filter_candidates` (`universe.rs` lines 677–735),
stripped of its tracing: keep the candidates passing `matchCandidate`. -/
def filterCandidates (i : UniverseIndex) (candidates : List SolvableId)
    (versionSet : VersionSet) (inverse : Bool) : List SolvableId :=
  candidates.filter (matchCandidate i versionSet inverse)

/-- The match predicate as claim C1 words it: the candidate's name equals the
version-set's name and its version satisfies the range, or it has a
`Provides` entry whose name equals the version-set's name and whose provided
version, if any, satisfies the range. -/
def claimC1Matches (i : UniverseIndex) (vs : VersionSet) (sid : SolvableId) : Bool :=
  ((solvableOf i sid).name == vs.name &&
      versionSatisfies (solvableOf i sid).package.version vs.range) ||
    ((solvableOf i sid).package.provides.filterMap Parsed.toOption).any
      (fun pv => pv.name == vs.name && providedSatisfies pv vs.range)

/-- Lowering of one ASCII character, the per-character step of Rust's
`eq_ignore_ascii_case`. -/
def asciiLower (c : Char) : Char :=
  if 65 ≤ c.toNat ∧ c.toNat ≤ 90 then Char.ofNat (c.toNat + 32) else c

/-- ASCII lowering of a string (structurally, over the character list), used
to model `eq_ignore_ascii_case` comparisons. -/
def lowerStr (s : String) : String :=
  ⟨s.data.map asciiLower⟩

/-- `UniverseIndex::get_arch_id`: the control-file string `"all"`
(ASCII-case-insensitively) denotes `Any`; any other string is interned via the
archlist.  The builder pre-seeds the string `"any"` at index 0, which is
`ArchId::Any`, so interning `"any"` also yields `Any`. -/
def getArchId (s : String) : ArchId :=
  if lowerStr s == "all" then .any
  else if s == "any" then .any
  else .arch s

/-- The preferred arch of the universe (`index.arch` in `Universe::new`): the
preferred-arch string is interned directly via the archlist, without the
`"all"` mapping of `get_arch_id`. -/
def preferredArchId (s : String) : ArchId :=
  if s == "any" then .any else .arch s

/-- The update closure of `UniverseIndex::insert_or_update_name`: append the
solvable to the entry's `packages`, and to `required` when flagged. -/
def updateNameEntry (e : NameEntry) (solv : Option (SolvableId × Bool)) : NameEntry :=
  match solv with
  | some (id, req) =>
      { e with packages := e.packages ++ [id],
               required := if req then e.required ++ [id] else e.required }
  | none => e

/-- The insert closure of `UniverseIndex::insert_or_update_name`: a fresh
entry holding just the given solvable. -/
def newNameEntry (n : String) (solv : Option (SolvableId × Bool)) : NameEntry :=
  match solv with
  | some (id, req) =>
      { name := n, packages := [id], required := if req then [id] else [] }
  | none => { name := n, packages := [], required := [] }

/-- `UniverseIndex::insert_or_update_name`: dedup lookup by name string, then
update in place or append.  The returned flag is `true` for
`UpdateResult::Inserted` (fresh name) and `false` for `Updated`. -/
def insertOrUpdateName (names : List NameEntry) (n : String)
    (solv : Option (SolvableId × Bool)) : Bool × List NameEntry :=
  match names with
  | [] => (true, [newNameEntry n solv])
  | e :: rest =>
      if e.name == n then (false, updateNameEntry e solv :: rest)
      else
        let r := insertOrUpdateName rest n solv
        (r.1, e :: r.2)

/-- The `Provides` loop at the end of `UniverseIndex::add_package`: each
successfully parsed provided name receives this solvable (not as required); a
parse error aborts construction. -/
def addProvides (names : List NameEntry) (sid : SolvableId) :
    List (Parsed Provided) → Option (List NameEntry)
  | [] => some names
  | .err _ :: _ => none
  | .ok pv :: rest =>
      addProvides (insertOrUpdateName names pv.name (some (sid, false))).2 sid rest

/-- `UniverseIndex::add_package` (`universe.rs` lines 220–249): reserve the
next solvable id, record the own name (required when essential/required, and
into the baseline list when the name is fresh), append the solvable, then
record the provides. -/
def addPackage (i : UniverseIndex) (baseline : List String) (pkgs : Nat)
    (package : Package) : Option (UniverseIndex × List String) :=
  let solvableId := i.solvables.length
  let isRequired := package.essential || package.required
  let arch := getArchId package.architecture
  let ins := insertOrUpdateName i.names package.name (some (solvableId, isRequired))
  let baseline' := if ins.1 && isRequired then baseline ++ [package.name] else baseline
  let solvables' := i.solvables ++
    [{ arch := arch, name := package.name, pkgs := pkgs, package := package }]
  (addProvides ins.2 solvableId package.provides).map
    (fun names' => ({ i with solvables := solvables', names := names' }, baseline'))

/-- Ingestion of one package set (the inner loop of `Universe::new`). -/
def ingestPackages (num : Nat) : UniverseIndex × List String → List Package →
    Option (UniverseIndex × List String)
  | st, [] => some st
  | st, p :: rest => (addPackage st.1 st.2 num p).bind (fun st' => ingestPackages num st' rest)

/-- Ingestion of the enumerated package sets (the outer loop of
`Universe::new`). -/
def ingestSets (num : Nat) : UniverseIndex × List String → List (List Package) →
    Option (UniverseIndex × List String)
  | st, [] => some st
  | st, ps :: rest => (ingestPackages num st ps).bind (fun st' => ingestSets (num + 1) st' rest)

/-- One exact-version pin of the baseline seeding in `Universe::new`: a
version set for the name, with the required solvable's arch, no self-ref, and
the solvable's exact version as range. -/
def pinVersionSet (i : UniverseIndex) (n : String) (sid : SolvableId) : VersionSet :=
  { arch := (solvableOf i sid).arch, name := n, selfref := none,
    range := .exact (solvableOf i sid).package.version }

/-- The requirement seeded for one baseline name in `Universe::new`: pins of
all the name's required solvables, a single version set when there is exactly
one and a union otherwise. -/
def pinRequirement (i : UniverseIndex) (n : String) : Requirement :=
  let pins := ((lookupName i.names n).getD default).required.map (pinVersionSet i n)
  match pins with
  | [vs] => .single vs
  | _ => .union pins

/-- The `index_builder` of `Universe::new` (`universe.rs` lines 350–390):
ingest every package of every set, then seed the baseline requirements from
the collected baseline names. -/
def buildIndex (preferred : String) (sets : List (List Package)) : Option UniverseIndex :=
  let i0 : UniverseIndex :=
    { arch := preferredArchId preferred, solvables := [], names := [], required := [] }
  (ingestSets 0 (i0, []) sets).map
    (fun st => { st.1 with required := st.2.map (pinRequirement st.1) })

/-- `UniverseIndex::add_single_package_dependency` (`universe.rs` lines
250–271): the self-ref is set when the owning package provides the dependency
name; an absent arch qualifier defaults to the owning solvable's arch, the
qualifier `"any"` (ASCII-case-insensitively) maps to `ArchId::Any`, and — in
the source as written — any other explicit qualifier also resolves to the
owning solvable's arch. -/
def addSinglePackageDependency (i : UniverseIndex) (id : SolvableId)
    (dep : Constraint) : VersionSet :=
  let pkg := solvableOf i id
  let selfRef := pkg.package.providesName dep.name
  let arch :=
    match dep.arch with
    | none => pkg.arch
    | some a => if lowerStr a == "any" then ArchId.any else pkg.arch
  { arch := arch, name := dep.name,
    selfref := if selfRef then some id else none, range := dep.range }

/-- Interning of one requirement of a package (the closure inside
`UniverseIndex::add_package_dependencies`): a single constraint or a union of
alternatives. -/
def internPackageRequirement (i : UniverseIndex) (s : SolvableId) :
    Dependency → Requirement
  | .single c => .single (addSinglePackageDependency i s c)
  | .union cs => .union (cs.map (addSinglePackageDependency i s))

/-- Short-circuiting traversal of lazily parsed entries, as
`collect::<Result<Vec<_>, ParseError>>()` does: the first parse error wins. -/
def mapParsed {α β : Type} (f : α → β) : List (Parsed α) → Parsed (List β)
  | [] => .ok []
  | .err e :: _ => .err e
  | .ok a :: rest =>
      match mapParsed f rest with
      | .ok bs => .ok (f a :: bs)
      | .err e => .err e

/-- The provider's dependency answer, from resolvo's `Dependencies`: known
requirements and constrains, or an unknown with an interned reason string
(the string value standing for its `StringId`). -/
inductive Dependencies where
  | known (requirements : List Requirement) (constrains : List VersionSet)
  | unknown (reason : String)
deriving DecidableEq, Repr

/-- `UniverseIndex::add_package_dependencies` (`universe.rs` lines 272–333):
requirements from `Pre-Depends` then `Depends`, constrains from `Conflicts`
then `Breaks`; a parse error in either phase yields `Unknown` with an
explanatory string, the requirements phase first. -/
def addPackageDependencies (i : UniverseIndex) (solvable : SolvableId) : Dependencies :=
  let pkg := solvableOf i solvable
  match mapParsed (internPackageRequirement i solvable)
      (pkg.package.preDepends ++ pkg.package.depends) with
  | .err e =>
      .unknown ("error parsing dependencies for " ++ pkg.package.fullName ++ ": " ++ e)
  | .ok requirements =>
      match mapParsed (addSinglePackageDependency i solvable)
          (pkg.package.conflicts ++ pkg.package.breaks) with
      | .err e =>
          .unknown ("error parsing constrains for " ++ pkg.package.fullName ++ ": " ++ e)
      | .ok constrains => .known requirements constrains

/-- `UniverseIndex::intern_version_set` for user-level constraints: an absent
arch qualifier defaults to the universe's preferred arch, an explicit one goes
through `get_arch_id`; no self-ref. -/
def internUserConstraint (i : UniverseIndex) (c : Constraint) : VersionSet :=
  { arch := match c.arch with | none => i.arch | some a => getArchId a,
    name := c.name, selfref := none, range := c.range }

/-- Interning of one user-level requirement in `Universe::problem`. -/
def internUserRequirement (i : UniverseIndex) : Dependency → Requirement
  | .single c => .single (internUserConstraint i c)
  | .union cs => .union (cs.map (internUserConstraint i))

/-- The requirement list built by `Universe::problem` (`universe.rs` lines
405–424): the interned user requirements chained with the seeded baseline. -/
def problemRequirements (i : UniverseIndex) (requirements : List Dependency) :
    List Requirement :=
  requirements.map (internUserRequirement i) ++ i.required

/-- The constraint list built by `Universe::problem`. -/
def problemConstraints (i : UniverseIndex) (constraints : List Constraint) :
    List VersionSet :=
  constraints.map (internUserConstraint i)

/-- The version sets of a requirement (a single, or the union's members in
order). -/
def requirementSets : Requirement → List VersionSet
  | .single vs => [vs]
  | .union vss => vss

/-- Modelled from the spec: the external clause solver satisfies a requirement
by selecting, for some alternative of it, a solvable that the provider's
`filter_candidates` accepts among the candidates of the alternative's name. -/
def reqSatisfied (i : UniverseIndex) (sol : List SolvableId) (r : Requirement) : Prop :=
  ∃ vs ∈ requirementSets r, ∃ s ∈ sol,
    s ∈ filterCandidates i (candidatesOf i vs.name) vs false

instance (i : UniverseIndex) (sol : List SolvableId) (r : Requirement) :
    Decidable (reqSatisfied i sol r) := by
  unfold reqSatisfied; infer_instance

/-- Modelled from the spec: a successful solution of the external clause
solver satisfies every requirement of the problem. -/
def solutionSatisfies (i : UniverseIndex) (reqs : List Requirement)
    (sol : List SolvableId) : Prop :=
  ∀ r ∈ reqs, reqSatisfied i sol r

instance (i : UniverseIndex) (reqs : List Requirement) (sol : List SolvableId) :
    Decidable (solutionSatisfies i reqs sol) := by
  unfold solutionSatisfies; infer_instance

/-- Structural lexicographic strict comparison of two character lists (the
kernel-computable counterpart of the standard list order). -/
def strLtB : List Char → List Char → Bool
  | [], [] => false
  | [], _ :: _ => true
  | _ :: _, [] => false
  | a :: as, b :: bs => if a < b then true else if b < a then false else strLtB as bs

/-- Three-way comparison of two name strings, as Rust's `str::cmp`
(lexicographic). -/
def cmpStr (a b : String) : Ordering :=
  if strLtB a.data b.data then .lt else if a = b then .eq else .gt

/-- Three-way comparison of two versions, as the `version` crate's total
order on Debian versions (modelled on `Nat`). -/
def cmpVer (a b : DebVersion) : Ordering :=
  if a < b then .lt else if a = b then .eq else .gt

/-- The comparator of `sort_candidates` (`universe.rs` lines 779–796): a
candidate whose arch does not satisfy the universe's preferred arch orders
before one whose arch does; otherwise ascending by package name, then
ascending by version. -/
def cmpCandidates (i : UniverseIndex) (a b : SolvableId) : Ordering :=
  let x := solvableOf i a
  let y := solvableOf i b
  match x.arch.satisfies i.arch, y.arch.satisfies i.arch with
  | false, true => .lt
  | true, false => .gt
  | _, _ =>
      match cmpStr x.package.name y.package.name with
      | .eq => cmpVer x.package.version y.package.version
      | c => c

/-- The non-strict order induced by the `sort_candidates` comparator. -/
def candLe (i : UniverseIndex) (a b : SolvableId) : Prop :=
  cmpCandidates i a b ≠ .gt

instance (i : UniverseIndex) : DecidableRel (candLe i) := fun a b =>
  inferInstanceAs (Decidable (cmpCandidates i a b ≠ .gt))

/-- `sort_candidates` of the provider: the Rust code sorts the slice with
`sort_by` under `cmpCandidates`; the embedding realizes the same ordering
contract with an insertion sort under the induced non-strict order. -/
def sortCandidates (i : UniverseIndex) (solvables : List SolvableId) : List SolvableId :=
  List.insertionSort (candLe i) solvables

/-- Whether a candidate's arch satisfies the universe's preferred arch (the
"native arch" preference used by `sort_candidates`). -/
def archOk (i : UniverseIndex) (s : SolvableId) : Bool :=
  (solvableOf i s).arch.satisfies i.arch

/-- The ordering claim C7 makes on any two candidates placed in this order:
either the first is non-native and the second native, or both are in the same
arch group and they are ordered ascending by package name and then ascending
by version. -/
def claimC7Le (i : UniverseIndex) (a b : SolvableId) : Prop :=
  (archOk i a = false ∧ archOk i b = true) ∨
    (archOk i a = archOk i b ∧
      ((solvableOf i a).package.name < (solvableOf i b).package.name ∨
        ((solvableOf i a).package.name = (solvableOf i b).package.name ∧
          (solvableOf i a).package.version ≤ (solvableOf i b).package.version)))

/-- The in-place ascending sort `solution.sort()` at the start of
`dependency_graph`, realized by an insertion sort. -/
def sortNat (l : List Nat) : List Nat :=
  List.insertionSort (· ≤ ·) l

/-- The requirements of a solvable as `dependency_graph` re-queries them:
`Known` requirements, or nothing for `Unknown` (on which the Rust code hits
`unreachable!`). -/
def knownRequirements (i : UniverseIndex) (p : SolvableId) : Option (List Requirement) :=
  match addPackageDependencies i p with
  | .known reqs _ => some reqs
  | .unknown _ => none

/-- The edges contributed by one solution member `p` in
`InnerUniverse::dependency_graph` (`universe.rs` lines 552–578): flatten its
requirements to version sets, look up each name's candidates, keep those
distinct from `p` and present in the (sorted) solution, and emit `p → q`. -/
def edgesFor (i : UniverseIndex) (sorted : List SolvableId) (p : SolvableId)
    (reqs : List Requirement) : List (SolvableId × SolvableId) :=
  ((reqs.flatMap requirementSets).flatMap
    (fun vs => (candidatesOf i vs.name).filter
      (fun sid => decide (sid ≠ p ∧ sid ∈ sorted)))).map (fun q => (p, q))

/-- The edge stream of `dependency_graph` over the sorted solution; `none`
models the `unreachable!` panic on a solvable with `Unknown` dependencies. -/
def depEdgesGo (i : UniverseIndex) (sorted : List SolvableId) :
    List SolvableId → Option (List (SolvableId × SolvableId))
  | [] => some []
  | p :: rest =>
      match knownRequirements i p, depEdgesGo i sorted rest with
      | some reqs, some es => some (edgesFor i sorted p reqs ++ es)
      | _, _ => none

/-- The edge list of the graph built by `InnerUniverse::dependency_graph`:
sort the solution, then chain every member's contributed edges. -/
def depEdges (i : UniverseIndex) (solution : List SolvableId) :
    Option (List (SolvableId × SolvableId)) :=
  depEdgesGo i (sortNat solution) (sortNat solution)

/-- The node set of the built `DiGraphMap`: `from_edges` registers exactly
the endpoints of the emitted edges, deduplicated. -/
def graphNodes (es : List (SolvableId × SolvableId)) : List SolvableId :=
  (es.flatMap (fun e => [e.1, e.2])).dedup

/-- One round of successor closure over the edge list, used to define
reachability in the dependency graph. -/
def reachStep (es : List (SolvableId × SolvableId)) (s : List SolvableId) :
    List SolvableId :=
  (s ++ es.filterMap (fun e => if e.1 ∈ s then some e.2 else none)).dedup

/-- Iterated successor closure. -/
def reachList (es : List (SolvableId × SolvableId)) :
    Nat → List SolvableId → List SolvableId
  | 0, s => s
  | n + 1, s => reachList es n (reachStep es s)

/-- Reachability along the directed edges: `b` is reachable from `a` by a
(possibly empty) edge path.  The closure is iterated past the number of
distinct endpoints, so the fixpoint is reached. -/
def reachable (es : List (SolvableId × SolvableId)) (a b : SolvableId) : Prop :=
  b ∈ reachList es (2 * es.length + 1) [a]

instance (es : List (SolvableId × SolvableId)) (a b : SolvableId) :
    Decidable (reachable es a b) :=
  inferInstanceAs (Decidable (_ ∈ _))

/-- Modelled from the spec: the contract of the external
`petgraph::algo::kosaraju_scc` as `sort_solution` relies on it — the returned
component lists partition the graph's nodes, each component is strongly
connected, and the components are in reverse topological order (an edge never
leaves a component for a strictly later one). -/
def IsKosarajuOutput (es : List (SolvableId × SolvableId))
    (sccs : List (List SolvableId)) : Prop :=
  sccs.flatten.Perm (graphNodes es) ∧
    (∀ c ∈ sccs, ∀ a ∈ c, ∀ b ∈ c, reachable es a b) ∧
    (∀ e ∈ es, ∀ j < sccs.length, ∀ k < sccs.length,
      e.1 ∈ sccs.getD j [] → e.2 ∈ sccs.getD k [] → k ≤ j)

instance (es : List (SolvableId × SolvableId)) (sccs : List (List SolvableId)) :
    Decidable (IsKosarajuOutput es sccs) := by
  unfold IsKosarajuOutput; infer_instance

/-- The universe with every parse-erroneous `Provides` entry dropped, used to
state that `filter_candidates` silently skips such entries. -/
def scrubProvides (i : UniverseIndex) : UniverseIndex :=
  { i with solvables := i.solvables.map (fun s =>
      { s with package := { s.package with
          provides := s.package.provides.filter (fun e => (Parsed.toOption e).isSome) } }) }

/-- The arch-resolution rule as claim C4 states it for a package's own
dependency constraint: an absent qualifier defaults to the owning solvable's
arch, `"any"` (case-insensitively) maps to `Any`, and any other explicit
qualifier is interned via the archlist, resolving to the named architecture's
id. -/
def claimC4Arch (pkgArch : ArchId) (q : Option String) : ArchId :=
  match q with
  | none => pkgArch
  | some a => if lowerStr a == "any" then ArchId.any else getArchId a

/-- Example package `a` on amd64 depending on `b`. -/
def pkgA : Package :=
  { name := "a", architecture := "amd64", version := 1, essential := false,
    required := false, provides := [], preDepends := [],
    depends := [.ok (.single { arch := none, name := "b", range := .all })],
    conflicts := [], breaks := [] }

/-- Example package `b` on amd64 with no dependencies. -/
def pkgB : Package :=
  { name := "b", architecture := "amd64", version := 1, essential := false,
    required := false, provides := [], preDepends := [], depends := [],
    conflicts := [], breaks := [] }

/-- Example universe: `a` (solvable 0) depends on `b` (solvable 1). -/
def exIdx : UniverseIndex := (buildIndex "amd64" [[pkgA, pkgB]]).getD default

/-- Example essential package `base` at version 1. -/
def pkgBase1 : Package :=
  { name := "base", architecture := "amd64", version := 1, essential := true,
    required := false, provides := [], preDepends := [], depends := [],
    conflicts := [], breaks := [] }

/-- Example essential package `base` at version 2. -/
def pkgBase2 : Package :=
  { pkgBase1 with version := 2 }

/-- Example universe seeded with two essential versions of `base`. -/
def exC2Idx : UniverseIndex :=
  (buildIndex "amd64" [[pkgBase1], [pkgBase2]]).getD default

/-- Example dependency constraint with the explicit arch qualifier `i386`. -/
def exC4Dep : Constraint := { arch := some "i386", name := "b", range := .all }

/-- Example package whose only `Depends` entry fails to parse. -/
def pkgE : Package :=
  { name := "e", architecture := "amd64", version := 1, essential := false,
    required := false, provides := [], preDepends := [],
    depends := [.err "bad dependency"], conflicts := [], breaks := [] }

/-- Example universe holding `pkgE`. -/
def exC5Idx : UniverseIndex := (buildIndex "amd64" [[pkgE]]).getD default

/-- Example package with a single dependency-free control file, for the
one-member-solution scenario. -/
def pkgC : Package :=
  { name := "c", architecture := "amd64", version := 1, essential := false,
    required := false, provides := [], preDepends := [], depends := [],
    conflicts := [], breaks := [] }

/-- Example universe with the single package `c`. -/
def exC9Idx : UniverseIndex := (buildIndex "amd64" [[pkgC]]).getD default

/-- Example package whose only `Provides` entry fails to parse. -/
def pkgP : Package :=
  { name := "p", architecture := "amd64", version := 1, essential := false,
    required := false, provides := [.err "bad provides"], preDepends := [],
    depends := [], conflicts := [], breaks := [] }

/-- Example universe holding `pkgP` (built literally: the constructor aborts
on provides parse errors, while `filter_candidates` re-parses lazily). -/
def exC10Idx : UniverseIndex :=
  { arch := .arch "amd64",
    solvables := [{ arch := .arch "amd64", name := "p", pkgs := 0, package := pkgP }],
    names := [{ name := "p", packages := [0], required := [] }],
    required := [] }

/-- Example version set over the name `p`. -/
def exC10Vs : VersionSet :=
  { arch := .arch "amd64", name := "p", selfref := none, range := .all }

/-- C1: a candidate solvable is in the subset returned by
`filter_candidates(candidates, version-set, inverse)` iff it is one of the
given candidates, it is not the version-set's self-ref (excluded regardless
of `inverse`), its arch satisfies the version-set's arch (excluded otherwise
regardless of `inverse`), and the match predicate XOR `inverse` holds. -/
theorem filter_candidates_spec (i : UniverseIndex) (cands : List SolvableId)
    (vs : VersionSet) (inverse : Bool) (sid : SolvableId) :
    sid ∈ filterCandidates i cands vs inverse ↔
      sid ∈ cands ∧ vs.selfref ≠ some sid ∧
        (solvableOf i sid).arch.satisfies vs.arch = true ∧
        Bool.xor (claimC1Matches i vs sid) inverse = true := by
  rw [filterCandidates, List.mem_filter]
  unfold matchCandidate claimC1Matches
  constructor
  · rintro ⟨hc, hm⟩
    refine ⟨hc, ?_⟩
    simp only at hm
    by_cases hs : some sid = vs.selfref
    · simp [hs] at hm
    · rw [if_neg (by simpa using hs)] at hm
      by_cases ha : (solvableOf i sid).arch.satisfies vs.arch = true
      · rw [if_neg (by simp [ha])] at hm
        exact ⟨fun h => hs h.symm, ha, hm⟩
      · simp only [Bool.not_eq_true] at ha
        simp [ha] at hm
  · rintro ⟨hc, hs, ha, hm⟩
    refine ⟨hc, ?_⟩
    simp only
    rw [if_neg (by simpa using fun h => hs h.symm), if_neg (by simp [ha])]
    exact hm

theorem strLtB_iff (a b : List Char) : strLtB a b = true ↔ a.lt b := by
  induction a generalizing b with
  | nil =>
      cases b with
      | nil =>
          simp only [strLtB, Bool.false_eq_true, false_iff]
          intro h
          cases h
      | cons y ys => simp [strLtB, List.lt.nil]
  | cons x xs ih =>
      cases b with
      | nil =>
          simp only [strLtB, Bool.false_eq_true, false_iff]
          intro h
          cases h
      | cons y ys =>
          rw [strLtB]
          by_cases h1 : x < y
          · rw [if_pos h1]
            simp only [true_iff]
            exact List.lt.head _ _ h1
          · rw [if_neg h1]
            by_cases h2 : y < x
            · rw [if_pos h2]
              simp only [Bool.false_eq_true, false_iff]
              intro h
              cases h with
              | head _ _ hlt => exact h1 hlt
              | tail hab hba _ => exact hba h2
            · rw [if_neg h2]
              rw [ih ys]
              constructor
              · intro h
                exact List.lt.tail h1 h2 h
              · intro h
                cases h with
                | head _ _ hlt => exact absurd hlt h1
                | tail _ _ htl => exact htl

theorem strLtB_String_iff (a b : String) : strLtB a.data b.data = true ↔ a < b := by
  rw [strLtB_iff, List.lt_iff_lex_lt, String.lt_iff_toList_lt]
  rfl

theorem cmpStr_lt {a b : String} (h : a < b) : cmpStr a b = .lt := by
  unfold cmpStr
  rw [if_pos ((strLtB_String_iff a b).mpr h)]

theorem cmpStr_eq (a : String) : cmpStr a a = .eq := by
  unfold cmpStr
  rw [if_neg (fun hh => absurd ((strLtB_String_iff a a).mp hh) (lt_irrefl a)),
    if_pos rfl]

theorem cmpStr_gt {a b : String} (h : b < a) : cmpStr a b = .gt := by
  unfold cmpStr
  rw [if_neg (fun hh => absurd ((strLtB_String_iff a b).mp hh) (not_lt_of_gt h)),
    if_neg (ne_of_gt h)]

theorem candLe_iff (i : UniverseIndex) (a b : SolvableId) :
    candLe i a b ↔ claimC7Le i a b := by
  unfold candLe claimC7Le cmpCandidates archOk
  rcases hx : (solvableOf i a).arch.satisfies i.arch
    <;> rcases hy : (solvableOf i b).arch.satisfies i.arch
    <;> simp only [hx, hy]
  case false.true => simp
  case true.false => simp
  all_goals {
    rcases lt_trichotomy (solvableOf i a).package.name (solvableOf i b).package.name
      with h | h | h
    · rw [cmpStr_lt h]
      simp [h]
    · rw [h, cmpStr_eq]
      unfold cmpVer
      rcases lt_trichotomy (solvableOf i a).package.version
          (solvableOf i b).package.version with hv | hv | hv
      · simp [hv, le_of_lt hv, lt_irrefl]
      · simp [hv, lt_irrefl]
      · simp [not_lt_of_gt hv, ne_of_gt hv, not_le_of_gt hv, lt_irrefl]
    · rw [cmpStr_gt h]
      simp [not_lt_of_gt h, ne_of_gt h] }

theorem claimC7Le_refl (i : UniverseIndex) (a : SolvableId) : claimC7Le i a a :=
  Or.inr ⟨rfl, Or.inr ⟨rfl, le_refl _⟩⟩

theorem claimC7Le_trans (i : UniverseIndex) {a b c : SolvableId}
    (h1 : claimC7Le i a b) (h2 : claimC7Le i b c) : claimC7Le i a c := by
  rcases h1 with ⟨ha1, hb1⟩ | ⟨hab, h1⟩
  · rcases h2 with ⟨hb2, _⟩ | ⟨hbc, _⟩
    · rw [hb1] at hb2; exact absurd hb2 (by simp)
    · exact Or.inl ⟨ha1, hbc ▸ hb1⟩
  · rcases h2 with ⟨hb2, hc2⟩ | ⟨hbc, h2⟩
    · exact Or.inl ⟨hab ▸ hb2, hc2⟩
    · refine Or.inr ⟨hab.trans hbc, ?_⟩
      rcases h1 with h1 | ⟨h1e, h1le⟩
      · rcases h2 with h2 | ⟨h2e, _⟩
        · exact Or.inl (h1.trans h2)
        · exact Or.inl (h2e ▸ h1)
      · rcases h2 with h2 | ⟨h2e, h2le⟩
        · exact Or.inl (h1e ▸ h2)
        · exact Or.inr ⟨h1e.trans h2e, h1le.trans h2le⟩

theorem claimC7Le_total (i : UniverseIndex) (a b : SolvableId) :
    claimC7Le i a b ∨ claimC7Le i b a := by
  rcases hx : archOk i a <;> rcases hy : archOk i b
  case false.true => exact Or.inl (Or.inl ⟨hx, hy⟩)
  case true.false => exact Or.inr (Or.inl ⟨hy, hx⟩)
  all_goals {
    rcases lt_trichotomy (solvableOf i a).package.name (solvableOf i b).package.name
      with h | h | h
    · exact Or.inl (Or.inr ⟨hx.trans hy.symm, Or.inl h⟩)
    · rcases le_total (solvableOf i a).package.version (solvableOf i b).package.version
        with hv | hv
      · exact Or.inl (Or.inr ⟨hx.trans hy.symm, Or.inr ⟨h, hv⟩⟩)
      · exact Or.inr (Or.inr ⟨hy.trans hx.symm, Or.inr ⟨h.symm, hv⟩⟩)
    · exact Or.inr (Or.inr ⟨hy.trans hx.symm, Or.inl h⟩) }

theorem pairwise_claimC7Le_getLast (i : UniverseIndex) :
    ∀ (l : List SolvableId), l.Pairwise (claimC7Le i) →
      ∀ (h : l ≠ []) (x : SolvableId), x ∈ l → claimC7Le i x (l.getLast h) := by
  intro l
  induction l with
  | nil => intro _ h; exact absurd rfl h
  | cons a t ih =>
      intro hp h x hx
      cases t with
      | nil =>
          rcases List.mem_singleton.mp hx with rfl
          exact claimC7Le_refl i x
      | cons b t' =>
          rw [List.getLast_cons (by simp)]
          rcases List.mem_cons.mp hx with rfl | hx'
          · exact (List.pairwise_cons.mp hp).1 _ (List.getLast_mem _)
          · exact ih (List.pairwise_cons.mp hp).2 (by simp) x hx'

/-- C7: `sort_candidates` permutes its input into an order where candidates
whose arch satisfies the universe's preferred arch appear after all others,
each arch group is ordered ascending by package name then ascending by
version, and consequently every element is bounded by the final (highest
preference) element, which the solver pops first. -/
theorem sort_candidates_spec (i : UniverseIndex) (l : List SolvableId) :
    (sortCandidates i l).Perm l ∧
      (sortCandidates i l).Pairwise (claimC7Le i) ∧
      ∀ (h : sortCandidates i l ≠ []) (x : SolvableId), x ∈ sortCandidates i l →
        claimC7Le i x ((sortCandidates i l).getLast h) := by
  haveI : IsTotal SolvableId (candLe i) :=
    ⟨fun a b => by
      rw [candLe_iff, candLe_iff]
      exact claimC7Le_total i a b⟩
  haveI : IsTrans SolvableId (candLe i) :=
    ⟨fun a b c h1 h2 => by
      rw [candLe_iff] at h1 h2 ⊢
      exact claimC7Le_trans i h1 h2⟩
  have hsorted : (sortCandidates i l).Pairwise (claimC7Le i) :=
    (List.sorted_insertionSort (candLe i) l).imp (fun h => (candLe_iff i _ _).mp h)
  exact ⟨List.perm_insertionSort (candLe i) l, hsorted,
    fun h x hx => pairwise_claimC7Le_getLast i _ hsorted h x hx⟩

theorem mapParsed_ok_of_all {α β : Type} (f : α → β) (l : List (Parsed α))
    (h : ∀ d ∈ l, (Parsed.toOption d).isSome = true) :
    mapParsed f l = .ok (l.filterMap (fun d => (Parsed.toOption d).map f)) := by
  induction l with
  | nil => rfl
  | cons a t ih =>
      cases a with
      | ok v =>
          rw [mapParsed, ih (fun d hd => h d (List.mem_cons_of_mem _ hd))]
          simp [List.filterMap_cons, Parsed.toOption]
      | err e =>
          have := h (.err e) (List.mem_cons_self _ _)
          simp [Parsed.toOption] at this

theorem mapParsed_err_of_mem {α β : Type} (f : α → β) (l : List (Parsed α))
    (h : ∃ d ∈ l, Parsed.toOption d = none) : ∃ e, mapParsed f l = .err e := by
  induction l with
  | nil => simp at h
  | cons a t ih =>
      cases a with
      | ok v =>
          rcases h with ⟨d, hd, hnone⟩
          rcases List.mem_cons.mp hd with rfl | hd'
          · simp [Parsed.toOption] at hnone
          · rcases ih ⟨d, hd', hnone⟩ with ⟨e, he⟩
            rw [mapParsed, he]
            exact ⟨e, rfl⟩
      | err e => exact ⟨e, rfl⟩

/-- C5: when every `Pre-Depends`/`Depends` and `Conflicts`/`Breaks` entry of a
solvable parses, `dependencies` returns `Known` with the requirements interned
from the concatenation of `Pre-Depends` then `Depends` and the constrains
interned (each as a single version set) from the concatenation of `Conflicts`
then `Breaks`; when any such entry fails to parse, it returns `Unknown` with
an explanatory string and no `Known` result. -/
theorem dependencies_spec (i : UniverseIndex) (s : SolvableId) :
    ((∀ d ∈ (solvableOf i s).package.preDepends ++ (solvableOf i s).package.depends,
        (Parsed.toOption d).isSome = true) →
      (∀ c ∈ (solvableOf i s).package.conflicts ++ (solvableOf i s).package.breaks,
        (Parsed.toOption c).isSome = true) →
      addPackageDependencies i s =
        .known
          (((solvableOf i s).package.preDepends ++ (solvableOf i s).package.depends).filterMap
            (fun d => (Parsed.toOption d).map (internPackageRequirement i s)))
          (((solvableOf i s).package.conflicts ++ (solvableOf i s).package.breaks).filterMap
            (fun c => (Parsed.toOption c).map (addSinglePackageDependency i s)))) ∧
    (((∃ d ∈ (solvableOf i s).package.preDepends ++ (solvableOf i s).package.depends,
        Parsed.toOption d = none) ∨
      (∃ c ∈ (solvableOf i s).package.conflicts ++ (solvableOf i s).package.breaks,
        Parsed.toOption c = none)) →
      ∃ r, addPackageDependencies i s = .unknown r) := by
  constructor
  · intro hreq hcon
    rw [addPackageDependencies,
      mapParsed_ok_of_all _ _ hreq, mapParsed_ok_of_all _ _ hcon]
  · intro h
    rcases h with h | h
    · rcases mapParsed_err_of_mem (internPackageRequirement i s) _ h with ⟨e, he⟩
      rw [addPackageDependencies, he]
      exact ⟨_, rfl⟩
    · rcases mapParsed_err_of_mem (addSinglePackageDependency i s) _ h with ⟨e, he⟩
      rw [addPackageDependencies]
      cases hm : mapParsed (internPackageRequirement i s)
          ((solvableOf i s).package.preDepends ++ (solvableOf i s).package.depends) with
      | err e' => exact ⟨_, rfl⟩
      | ok reqs => rw [he]; exact ⟨_, rfl⟩

theorem filterMap_filter_isSome {α β : Type} (f : α → Option β) (l : List α) :
    (l.filter (fun e => (f e).isSome)).filterMap f = l.filterMap f := by
  induction l with
  | nil => rfl
  | cons a t ih =>
      rcases hf : f a with _ | b <;>
        simp [List.filter_cons, List.filterMap_cons, hf, ih]

theorem filterMap_toOption_scrub {α : Type} (l : List (Parsed α)) :
    (l.filter (fun e => (Parsed.toOption e).isSome)).filterMap Parsed.toOption =
      l.filterMap Parsed.toOption :=
  filterMap_filter_isSome Parsed.toOption l

theorem solvableOf_scrub (i : UniverseIndex) (sid : SolvableId) :
    solvableOf (scrubProvides i) sid =
      { solvableOf i sid with package := { (solvableOf i sid).package with
          provides := (solvableOf i sid).package.provides.filter
            (fun e => (Parsed.toOption e).isSome) } } := by
  unfold solvableOf scrubProvides
  rcases Nat.lt_or_ge sid i.solvables.length with h | h
  · rw [List.getD_eq_getElem _ _ (by simpa using h),
      List.getD_eq_getElem _ _ h, List.getElem_map]
  · rw [List.getD_eq_default _ _ (by simpa using h), List.getD_eq_default _ _ h]
    rfl

theorem matchCandidate_scrub (i : UniverseIndex) (vs : VersionSet) (inv : Bool)
    (sid : SolvableId) :
    matchCandidate (scrubProvides i) vs inv sid = matchCandidate i vs inv sid := by
  unfold matchCandidate
  rw [solvableOf_scrub]
  simp [filterMap_toOption_scrub]

/-- C10: `filter_candidates` silently skips parse-erroneous `Provides`
entries — dropping them from the universe does not change any result — and a
candidate all of whose `Provides` entries fail to parse can still match
through its own name and version, no error being surfaced. -/
theorem filter_candidates_parse_error_spec (i : UniverseIndex)
    (cands : List SolvableId) (vs : VersionSet) (inverse : Bool) :
    filterCandidates (scrubProvides i) cands vs inverse =
        filterCandidates i cands vs inverse ∧
      ∀ sid ∈ cands,
        (∀ e ∈ (solvableOf i sid).package.provides, Parsed.toOption e = none) →
        vs.selfref ≠ some sid →
        (solvableOf i sid).arch.satisfies vs.arch = true →
        ((solvableOf i sid).name == vs.name &&
          versionSatisfies (solvableOf i sid).package.version vs.range) = true →
        sid ∈ filterCandidates i cands vs false := by
  constructor
  · unfold filterCandidates
    exact List.filter_congr (fun sid _ => matchCandidate_scrub i vs inverse sid)
  · intro sid hmem hprov hself harch hname
    rw [filterCandidates, List.mem_filter]
    refine ⟨hmem, ?_⟩
    unfold matchCandidate
    rw [if_neg (by simpa using fun h => hself h.symm), if_neg (by simp [harch])]
    have hnil : (solvableOf i sid).package.provides.filterMap Parsed.toOption = [] := by
      rw [List.filterMap_eq_nil_iff]
      exact hprov
    simp [hnil, hname]

theorem mem_edgesFor (i : UniverseIndex) (sorted : List SolvableId) (p : SolvableId)
    (reqs : List Requirement) (a b : SolvableId) :
    (a, b) ∈ edgesFor i sorted p reqs ↔
      a = p ∧ b ≠ p ∧ b ∈ sorted ∧
        ∃ vs ∈ reqs.flatMap requirementSets, b ∈ candidatesOf i vs.name := by
  unfold edgesFor
  rw [List.mem_map]
  constructor
  · rintro ⟨q, hq, heq⟩
    rw [Prod.mk.injEq] at heq
    obtain ⟨rfl, rfl⟩ := heq
    rcases List.mem_flatMap.mp hq with ⟨vs, hvs, hqvs⟩
    rcases List.mem_filter.mp hqvs with ⟨hcand, hcond⟩
    rcases of_decide_eq_true hcond with ⟨hne, hsor⟩
    exact ⟨rfl, hne, hsor, vs, hvs, hcand⟩
  · rintro ⟨rfl, hne, hsor, vs, hvs, hcand⟩
    exact ⟨b, List.mem_flatMap.mpr ⟨vs, hvs,
      List.mem_filter.mpr ⟨hcand, decide_eq_true ⟨hne, hsor⟩⟩⟩, rfl⟩

theorem depEdgesGo_known (i : UniverseIndex) (sorted : List SolvableId) :
    ∀ (l : List SolvableId) (es : List (SolvableId × SolvableId)),
      depEdgesGo i sorted l = some es →
      ∀ p ∈ l, ∃ reqs, knownRequirements i p = some reqs := by
  intro l
  induction l with
  | nil => intro es _ p hp; simp at hp
  | cons q rest ih =>
      intro es hsome p hp
      rcases hk : knownRequirements i q with _ | reqs
      · rw [depEdgesGo, hk] at hsome
        exact absurd hsome (by simp)
      · rcases hr : depEdgesGo i sorted rest with _ | es'
        · rw [depEdgesGo, hk, hr] at hsome
          exact absurd hsome (by simp)
        · rcases List.mem_cons.mp hp with rfl | hp'
          · exact ⟨reqs, hk⟩
          · exact ih es' hr p hp'

theorem depEdgesGo_total (i : UniverseIndex) (sorted : List SolvableId) :
    ∀ (l : List SolvableId), (∀ p ∈ l, ∃ reqs, knownRequirements i p = some reqs) →
      ∃ es, depEdgesGo i sorted l = some es := by
  intro l
  induction l with
  | nil => intro _; exact ⟨[], rfl⟩
  | cons q rest ih =>
      intro h
      rcases h q (List.mem_cons_self _ _) with ⟨reqs, hk⟩
      rcases ih (fun p hp => h p (List.mem_cons_of_mem _ hp)) with ⟨es', hr⟩
      exact ⟨edgesFor i sorted q reqs ++ es', by rw [depEdgesGo, hk, hr]⟩

theorem mem_depEdgesGo (i : UniverseIndex) (sorted : List SolvableId) :
    ∀ (l : List SolvableId) (es : List (SolvableId × SolvableId)),
      depEdgesGo i sorted l = some es →
      ∀ a b, ((a, b) ∈ es ↔ a ∈ l ∧ ∃ reqs, knownRequirements i a = some reqs ∧
        (a, b) ∈ edgesFor i sorted a reqs) := by
  intro l
  induction l with
  | nil =>
      intro es h a b
      rw [depEdgesGo] at h
      have : es = [] := (Option.some.inj h).symm
      subst this
      simp
  | cons q rest ih =>
      intro es h a b
      rcases hk : knownRequirements i q with _ | reqs
      · rw [depEdgesGo, hk] at h
        exact absurd h (by simp)
      rcases hr : depEdgesGo i sorted rest with _ | es'
      · rw [depEdgesGo, hk, hr] at h
        exact absurd h (by simp)
      have hes : es = edgesFor i sorted q reqs ++ es' := by
        rw [depEdgesGo, hk, hr] at h
        exact (Option.some.inj h).symm
      subst hes
      rw [List.mem_append]
      constructor
      · rintro (hin | hin)
        · have ha : a = q := ((mem_edgesFor i sorted q reqs a b).mp hin).1
          subst ha
          exact ⟨List.mem_cons_self _ _, reqs, hk, hin⟩
        · rcases (ih es' hr a b).mp hin with ⟨hmem, reqs', hk', hin'⟩
          exact ⟨List.mem_cons_of_mem _ hmem, reqs', hk', hin'⟩
      · rintro ⟨hmem, reqs', hk', hin'⟩
        rcases List.mem_cons.mp hmem with rfl | hmem'
        · left
          rw [hk] at hk'
          cases Option.some.inj hk'
          exact hin'
        · right
          exact (ih es' hr a b).mpr ⟨hmem', reqs', hk', hin'⟩

theorem sortNat_perm (l : List Nat) : (sortNat l).Perm l :=
  List.perm_insertionSort _ _

theorem mem_sortNat (l : List Nat) (x : Nat) : x ∈ sortNat l ↔ x ∈ l :=
  (sortNat_perm l).mem_iff

theorem depEdges_mem (i : UniverseIndex) (sol : List SolvableId)
    (es : List (SolvableId × SolvableId)) (h : depEdges i sol = some es)
    (a b : SolvableId) :
    (a, b) ∈ es ↔ a ∈ sol ∧ b ∈ sol ∧ b ≠ a ∧
      ∃ reqs, knownRequirements i a = some reqs ∧
        ∃ vs ∈ reqs.flatMap requirementSets, b ∈ candidatesOf i vs.name := by
  rw [mem_depEdgesGo i (sortNat sol) (sortNat sol) es h a b]
  constructor
  · rintro ⟨hmem, reqs, hk, hin⟩
    rcases (mem_edgesFor i (sortNat sol) a reqs a b).mp hin with
      ⟨-, hne, hsor, vs, hvs, hcand⟩
    exact ⟨(mem_sortNat _ _).mp hmem, (mem_sortNat _ _).mp hsor, hne,
      reqs, hk, vs, hvs, hcand⟩
  · rintro ⟨ha, hb, hne, reqs, hk, vs, hvs, hcand⟩
    exact ⟨(mem_sortNat _ _).mpr ha, reqs, hk,
      (mem_edgesFor i (sortNat sol) a reqs a b).mpr
        ⟨rfl, hne, (mem_sortNat _ _).mpr hb, vs, hvs, hcand⟩⟩

theorem depEdges_known (i : UniverseIndex) (sol : List SolvableId)
    (es : List (SolvableId × SolvableId)) (h : depEdges i sol = some es) :
    ∀ p ∈ sol, ∃ reqs, knownRequirements i p = some reqs :=
  fun p hp => depEdgesGo_known i (sortNat sol) (sortNat sol) es h p
    ((mem_sortNat _ _).mpr hp)

theorem depEdges_total (i : UniverseIndex) (sol : List SolvableId)
    (h : ∀ p ∈ sol, ∃ reqs, knownRequirements i p = some reqs) :
    ∃ es, depEdges i sol = some es :=
  depEdgesGo_total i (sortNat sol) (sortNat sol)
    (fun p hp => h p ((mem_sortNat _ _).mp hp))

theorem depEdges_endpoints (i : UniverseIndex) (sol : List SolvableId)
    (es : List (SolvableId × SolvableId)) (h : depEdges i sol = some es) :
    ∀ e ∈ es, e.1 ∈ sol ∧ e.2 ∈ sol ∧ e.1 ≠ e.2 := by
  intro e he
  rcases (depEdges_mem i sol es h e.1 e.2).mp (by simpa using he) with
    ⟨h1, h2, h3, -⟩
  exact ⟨h1, h2, fun hh => h3 hh.symm⟩

theorem mem_graphNodes (es : List (SolvableId × SolvableId)) (x : SolvableId) :
    x ∈ graphNodes es ↔ ∃ e ∈ es, x = e.1 ∨ x = e.2 := by
  simp [graphNodes, List.mem_flatMap]

/-- C6: every edge of the graph returned by `dependency_graph(sol)` has both
its endpoints in `sol`, and the graph contains no self-loop edges. -/
theorem dependency_graph_edge_spec (i : UniverseIndex) (sol : List SolvableId)
    (es : List (SolvableId × SolvableId)) (h : depEdges i sol = some es) :
    ∀ e ∈ es, e.1 ∈ sol ∧ e.2 ∈ sol ∧ e.1 ≠ e.2 :=
  depEdges_endpoints i sol es h

theorem flatten_decomp_single (sccs : List (List SolvableId)) (j : Nat)
    (hj : j < sccs.length) :
    ∃ l₁ l₂, sccs.flatten = l₁ ++ sccs.getD j [] ++ l₂ := by
  induction sccs generalizing j with
  | nil => simp at hj
  | cons c rest ih =>
      cases j with
      | zero => exact ⟨[], rest.flatten, by simp⟩
      | succ j' =>
          obtain ⟨l₁, l₂, h⟩ := ih j' (by simpa using hj)
          exact ⟨c ++ l₁, l₂, by simp [h, List.getD_cons_succ]⟩

theorem flatten_decomp_pair (sccs : List (List SolvableId)) (j k : Nat)
    (hjk : j < k) (hk : k < sccs.length) :
    ∃ l₁ l₂ l₃,
      sccs.flatten = l₁ ++ sccs.getD j [] ++ l₂ ++ sccs.getD k [] ++ l₃ := by
  induction sccs generalizing j k with
  | nil => simp at hk
  | cons c rest ih =>
      cases j with
      | zero =>
          cases k with
          | zero => omega
          | succ k' =>
              obtain ⟨l₁, l₂, h⟩ := flatten_decomp_single rest k' (by simpa using hk)
              exact ⟨[], l₁, l₂, by simp [h, List.getD_cons_succ]⟩
      | succ j' =>
          cases k with
          | zero => omega
          | succ k' =>
              obtain ⟨l₁, l₂, l₃, h⟩ := ih j' k' (by omega) (by simpa using hk)
              exact ⟨c ++ l₁, l₂, l₃, by simp [h, List.getD_cons_succ]⟩

theorem sublist_pair_of_comps {sccs : List (List SolvableId)} {j k : Nat}
    {b a : SolvableId} (hjk : j < k) (hk : k < sccs.length)
    (hb : b ∈ sccs.getD j []) (ha : a ∈ sccs.getD k []) :
    List.Sublist [b, a] sccs.flatten := by
  obtain ⟨l₁, l₂, l₃, h⟩ := flatten_decomp_pair sccs j k hjk hk
  rw [h]
  have h1 : List.Sublist [b] (sccs.getD j []) := List.singleton_sublist.mpr hb
  have h2 : List.Sublist [a] (sccs.getD k []) := List.singleton_sublist.mpr ha
  have hmain : List.Sublist (([] ++ [b] ++ []) ++ [a] ++ [])
      (((l₁ ++ sccs.getD j [] ++ l₂) ++ sccs.getD k []) ++ l₃) :=
    (((List.nil_sublist l₁).append h1).append (List.nil_sublist l₂)).append h2
      |>.append (List.nil_sublist l₃)
  simpa using hmain

theorem mem_flatten_comp {sccs : List (List SolvableId)} {x : SolvableId}
    (h : x ∈ sccs.flatten) : ∃ j, j < sccs.length ∧ x ∈ sccs.getD j [] := by
  rw [List.mem_flatten] at h
  obtain ⟨c, hc, hx⟩ := h
  obtain ⟨j, hj, hget⟩ := List.mem_iff_getElem.mp hc
  exact ⟨j, hj, by rw [List.getD_eq_getElem _ _ hj, hget]; exact hx⟩

/-- C3: under the Kosaraju contract, `sort_solution` emits the members of
each strongly connected component consecutively, and whenever solvable `a`
depends on solvable `b` (an edge `a → b` of the dependency graph over the
solution, so both are in the solution) and no dependency cycle exists between
them, `b` precedes `a` in the flattened output. -/
theorem sort_solution_order_spec (i : UniverseIndex) (sol : List SolvableId)
    (es : List (SolvableId × SolvableId)) (sccs : List (List SolvableId))
    (h : depEdges i sol = some es) (hk : IsKosarajuOutput es sccs) :
    (∀ c ∈ sccs, ∃ l₁ l₂, sccs.flatten = l₁ ++ c ++ l₂) ∧
      ∀ a b, (a, b) ∈ es → ¬ reachable es b a →
        List.Sublist [b, a] sccs.flatten := by
  obtain ⟨hperm, hconn, htopo⟩ := hk
  constructor
  · intro c hc
    obtain ⟨s, t, rfl⟩ := List.append_of_mem hc
    exact ⟨s.flatten, t.flatten, by simp⟩
  · intro a b hab hnr
    have ha_fl : a ∈ sccs.flatten :=
      hperm.mem_iff.mpr ((mem_graphNodes es a).mpr ⟨(a, b), hab, Or.inl rfl⟩)
    have hb_fl : b ∈ sccs.flatten :=
      hperm.mem_iff.mpr ((mem_graphNodes es b).mpr ⟨(a, b), hab, Or.inr rfl⟩)
    obtain ⟨ja, hja, haj⟩ := mem_flatten_comp ha_fl
    obtain ⟨jb, hjb, hbj⟩ := mem_flatten_comp hb_fl
    have hle : jb ≤ ja := htopo (a, b) hab ja hja jb hjb haj hbj
    rcases Nat.lt_or_ge jb ja with hlt | hge
    · exact sublist_pair_of_comps hlt hja hbj haj
    · have heq : jb = ja := le_antisymm hle hge
      subst heq
      have hc_mem : sccs.getD jb [] ∈ sccs := by
        rw [List.getD_eq_getElem _ _ hjb]
        exact List.getElem_mem hjb
      exact absurd (hconn _ hc_mem b hbj a haj) hnr

/-- C9: the node set of `dependency_graph(sol)` is exactly the solution
members occurring as an endpoint of at least one emitted edge; the flattened
`sort_solution` output is a permutation of that node set, so a solution
member with no incident edges is absent from both (hence the output need not
be a permutation of the input solution). -/
theorem dependency_graph_node_spec (i : UniverseIndex) (sol : List SolvableId)
    (es : List (SolvableId × SolvableId)) (sccs : List (List SolvableId))
    (h : depEdges i sol = some es) (hk : IsKosarajuOutput es sccs) :
    (∀ s, s ∈ graphNodes es ↔ s ∈ sol ∧ ∃ e ∈ es, s = e.1 ∨ s = e.2) ∧
      sccs.flatten.Perm (graphNodes es) ∧
      ∀ s ∈ sol, (∀ e ∈ es, s ≠ e.1 ∧ s ≠ e.2) → s ∉ sccs.flatten := by
  obtain ⟨hperm, -, -⟩ := hk
  have hchar : ∀ s, s ∈ graphNodes es ↔ s ∈ sol ∧ ∃ e ∈ es, s = e.1 ∨ s = e.2 := by
    intro s
    rw [mem_graphNodes]
    constructor
    · rintro ⟨e, he, hor⟩
      have hends := depEdges_endpoints i sol es h e he
      rcases hor with rfl | rfl
      · exact ⟨hends.1, e, he, Or.inl rfl⟩
      · exact ⟨hends.2.1, e, he, Or.inr rfl⟩
    · rintro ⟨-, e, he, hor⟩
      exact ⟨e, he, hor⟩
  refine ⟨hchar, hperm, ?_⟩
  intro s hs hnone hmem
  rcases ((hchar s).mp (hperm.mem_iff.mp hmem)) with ⟨-, e, he, hor⟩
  rcases hor with h1 | h2
  · exact (hnone e he).1 h1
  · exact (hnone e he).2 h2

/-- C8: re-sorting the output of `sort_solution` succeeds and yields the same
multiset of solvables — the rebuilt dependency graph over the output has the
same edges and nodes, so any Kosaraju decomposition of it flattens to a
permutation of the first output. -/
theorem sort_solution_idempotent_spec (i : UniverseIndex) (sol : List SolvableId)
    (es1 : List (SolvableId × SolvableId)) (sccs1 : List (List SolvableId))
    (h1 : depEdges i sol = some es1) (hk1 : IsKosarajuOutput es1 sccs1) :
    ∃ es2, depEdges i sccs1.flatten = some es2 ∧
      ∀ sccs2, IsKosarajuOutput es2 sccs2 →
        (sccs2.flatten : Multiset SolvableId) = (sccs1.flatten : Multiset SolvableId) := by
  obtain ⟨hperm1, -, -⟩ := hk1
  have hsub : ∀ x ∈ sccs1.flatten, x ∈ sol := by
    intro x hx
    rcases (mem_graphNodes es1 x).mp (hperm1.mem_iff.mp hx) with ⟨e, he, hor⟩
    have hends := depEdges_endpoints i sol es1 h1 e he
    rcases hor with rfl | rfl
    · exact hends.1
    · exact hends.2.1
  obtain ⟨es2, hes2⟩ := depEdges_total i sccs1.flatten
    (fun p hp => depEdges_known i sol es1 h1 p (hsub p hp))
  refine ⟨es2, hes2, ?_⟩
  have hedge : ∀ a b, ((a, b) ∈ es2 ↔ (a, b) ∈ es1) := by
    intro a b
    constructor
    · intro hin
      rcases (depEdges_mem i _ es2 hes2 a b).mp hin with ⟨ha, hb, hrest⟩
      exact (depEdges_mem i sol es1 h1 a b).mpr ⟨hsub a ha, hsub b hb, hrest⟩
    · intro hin
      have ha : a ∈ sccs1.flatten := hperm1.mem_iff.mpr
        ((mem_graphNodes es1 a).mpr ⟨(a, b), hin, Or.inl rfl⟩)
      have hb : b ∈ sccs1.flatten := hperm1.mem_iff.mpr
        ((mem_graphNodes es1 b).mpr ⟨(a, b), hin, Or.inr rfl⟩)
      rcases (depEdges_mem i sol es1 h1 a b).mp hin with ⟨-, -, hrest⟩
      exact (depEdges_mem i _ es2 hes2 a b).mpr ⟨ha, hb, hrest⟩
  have hnodes : ∀ x, x ∈ graphNodes es2 ↔ x ∈ graphNodes es1 := by
    intro x
    rw [mem_graphNodes, mem_graphNodes]
    constructor
    · rintro ⟨⟨p, q⟩, he, hor⟩
      exact ⟨(p, q), (hedge p q).mp he, hor⟩
    · rintro ⟨⟨p, q⟩, he, hor⟩
      exact ⟨(p, q), (hedge p q).mpr he, hor⟩
  intro sccs2 hk2
  obtain ⟨hperm2, -, -⟩ := hk2
  rw [Multiset.coe_eq_coe]
  have hnp : (graphNodes es2).Perm (graphNodes es1) :=
    (List.perm_ext_iff_of_nodup (List.nodup_dedup _) (List.nodup_dedup _)).mpr hnodes
  exact hperm2.trans (hnp.trans hperm1.symm)

theorem lookupName_cons (x : NameEntry) (xs : List NameEntry) (m : String) :
    lookupName (x :: xs) m = if x.name == m then some x else lookupName xs m := by
  by_cases h : x.name == m
  · rw [lookupName, @List.find?_cons_of_pos _ (fun e => e.name == m) x xs h, if_pos h]
  · rw [lookupName, @List.find?_cons_of_neg _ (fun e => e.name == m) x xs h, if_neg h]
    rfl

theorem updateNameEntry_name (e : NameEntry) (solv : Option (SolvableId × Bool)) :
    (updateNameEntry e solv).name = e.name := by
  cases solv with
  | none => rfl
  | some s => cases s; rfl

theorem updateNameEntry_required_ne (e : NameEntry) (solv : Option (SolvableId × Bool))
    (h : e.required ≠ []) : (updateNameEntry e solv).required ≠ [] := by
  cases solv with
  | none => exact h
  | some s =>
      cases s with
      | mk id req =>
          cases req with
          | false => exact h
          | true => simp [updateNameEntry]

theorem insertOrUpdate_lookup_preserves (n : String) (solv : Option (SolvableId × Bool)) :
    ∀ (names : List NameEntry) (m : String) (e : NameEntry),
      lookupName names m = some e → e.required ≠ [] →
      ∃ e', lookupName (insertOrUpdateName names n solv).2 m = some e' ∧
        e'.required ≠ [] := by
  intro names
  induction names with
  | nil => intro m e he _; simp [lookupName] at he
  | cons e₀ rest ih =>
      intro m e he hne
      rw [lookupName_cons] at he
      rw [insertOrUpdateName]
      by_cases h0 : e₀.name == n
      · rw [if_pos h0]
        simp only
        rw [lookupName_cons]
        by_cases hm : e₀.name == m
        · rw [if_pos hm] at he
          cases Option.some.inj he
          rw [if_pos (by rw [updateNameEntry_name]; exact hm)]
          exact ⟨_, rfl, updateNameEntry_required_ne _ _ hne⟩
        · rw [if_neg hm] at he
          rw [if_neg (by rw [updateNameEntry_name]; exact hm)]
          exact ⟨e, he, hne⟩
      · rw [if_neg h0]
        simp only
        rw [lookupName_cons]
        by_cases hm : e₀.name == m
        · rw [if_pos hm] at he
          cases Option.some.inj he
          rw [if_pos hm]
          exact ⟨e₀, rfl, hne⟩
        · rw [if_neg hm] at he
          rw [if_neg hm]
          exact ih m e he hne

theorem insertOrUpdate_lookup_required :
    ∀ (names : List NameEntry) (n : String) (sid : SolvableId),
      ∃ e', lookupName (insertOrUpdateName names n (some (sid, true))).2 n = some e' ∧
        e'.required ≠ [] := by
  intro names
  induction names with
  | nil =>
      intro n sid
      rw [insertOrUpdateName]
      simp only [newNameEntry]
      rw [lookupName_cons]
      rw [if_pos (by simp)]
      exact ⟨_, rfl, by simp⟩
  | cons e₀ rest ih =>
      intro n sid
      rw [insertOrUpdateName]
      by_cases h0 : e₀.name == n
      · rw [if_pos h0]
        simp only
        rw [lookupName_cons]
        rw [if_pos (by rw [updateNameEntry_name]; exact h0)]
        exact ⟨_, rfl, by simp [updateNameEntry]⟩
      · rw [if_neg h0]
        simp only
        rw [lookupName_cons, if_neg h0]
        exact ih n sid

theorem addProvides_preserves :
    ∀ (l : List (Parsed Provided)) (names names' : List NameEntry) (sid : SolvableId),
      addProvides names sid l = some names' →
      ∀ m e, lookupName names m = some e → e.required ≠ [] →
        ∃ e', lookupName names' m = some e' ∧ e'.required ≠ [] := by
  intro l
  induction l with
  | nil =>
      intro names names' sid h m e he hne
      cases Option.some.inj h
      exact ⟨e, he, hne⟩
  | cons a t ih =>
      intro names names' sid h m e he hne
      cases a with
      | err msg => simp [addProvides] at h
      | ok pv =>
          rw [addProvides] at h
          obtain ⟨e₁, he₁, hne₁⟩ :=
            insertOrUpdate_lookup_preserves pv.name (some (sid, false)) names m e he hne
          exact ih _ names' sid h m e₁ he₁ hne₁

theorem addPackage_preserves (i : UniverseIndex) (baseline : List String)
    (pkgs : Nat) (p : Package) (i' : UniverseIndex) (baseline' : List String)
    (h : addPackage i baseline pkgs p = some (i', baseline'))
    (hinv : ∀ n ∈ baseline, ∃ e, lookupName i.names n = some e ∧ e.required ≠ []) :
    ∀ n ∈ baseline', ∃ e, lookupName i'.names n = some e ∧ e.required ≠ [] := by
  simp only [addPackage, Option.map_eq_some'] at h
  obtain ⟨names', hprov, heq⟩ := h
  rw [Prod.mk.injEq] at heq
  obtain ⟨hi', hb'⟩ := heq
  intro n hn
  have hnames : i'.names = names' := by rw [← hi']
  rw [hnames]
  by_cases hcond : ((insertOrUpdateName i.names p.name
      (some (i.solvables.length, p.essential || p.required))).1 &&
      (p.essential || p.required)) = true
  · rw [if_pos hcond] at hb'
    rw [← hb'] at hn
    rcases List.mem_append.mp hn with hold | hnew
    · obtain ⟨e, he, hne⟩ := hinv n hold
      obtain ⟨e₁, he₁, hne₁⟩ := insertOrUpdate_lookup_preserves p.name
        (some (i.solvables.length, p.essential || p.required)) i.names n e he hne
      exact addProvides_preserves p.provides _ names' i.solvables.length hprov n e₁ he₁ hne₁
    · have hn' : n = p.name := by simpa using hnew
      subst hn'
      have hreq : (p.essential || p.required) = true := by
        revert hcond
        cases (p.essential || p.required) <;> simp
      rw [hreq] at hprov
      obtain ⟨e₁, he₁, hne₁⟩ :=
        insertOrUpdate_lookup_required i.names p.name i.solvables.length
      exact addProvides_preserves p.provides _ names' i.solvables.length hprov
        p.name e₁ he₁ hne₁
  · rw [if_neg hcond] at hb'
    rw [← hb'] at hn
    obtain ⟨e, he, hne⟩ := hinv n hn
    obtain ⟨e₁, he₁, hne₁⟩ := insertOrUpdate_lookup_preserves p.name
      (some (i.solvables.length, p.essential || p.required)) i.names n e he hne
    exact addProvides_preserves p.provides _ names' i.solvables.length hprov n e₁ he₁ hne₁

theorem ingestPackages_preserves (num : Nat) :
    ∀ (ps : List Package) (st st' : UniverseIndex × List String),
      ingestPackages num st ps = some st' →
      (∀ n ∈ st.2, ∃ e, lookupName st.1.names n = some e ∧ e.required ≠ []) →
      ∀ n ∈ st'.2, ∃ e, lookupName st'.1.names n = some e ∧ e.required ≠ [] := by
  intro ps
  induction ps with
  | nil =>
      intro st st' h hinv
      cases Option.some.inj h
      exact hinv
  | cons p rest ih =>
      intro st st' h hinv
      rw [ingestPackages] at h
      rcases hadd : addPackage st.1 st.2 num p with _ | st₁
      · rw [hadd] at h
        exact absurd h (by simp)
      · rw [hadd] at h
        simp only [Option.some_bind] at h
        exact ih st₁ st' h
          (addPackage_preserves st.1 st.2 num p st₁.1 st₁.2 hadd hinv)

theorem ingestSets_preserves :
    ∀ (ss : List (List Package)) (num : Nat) (st st' : UniverseIndex × List String),
      ingestSets num st ss = some st' →
      (∀ n ∈ st.2, ∃ e, lookupName st.1.names n = some e ∧ e.required ≠ []) →
      ∀ n ∈ st'.2, ∃ e, lookupName st'.1.names n = some e ∧ e.required ≠ [] := by
  intro ss
  induction ss with
  | nil =>
      intro num st st' h hinv
      cases Option.some.inj h
      exact hinv
  | cons ps rest ih =>
      intro num st st' h hinv
      rw [ingestSets] at h
      rcases hing : ingestPackages num st ps with _ | st₁
      · rw [hing] at h
        exact absurd h (by simp)
      · rw [hing] at h
        simp only [Option.some_bind] at h
        exact ih (num + 1) st₁ st' h (ingestPackages_preserves num ps st st₁ hing hinv)

/-- C2 (amended): every seeded baseline requirement pins the exact versions
of the required solvables of a name recorded at construction (a single
version set when there is one required solvable, a union otherwise);
`problem()` appends the baseline to every problem's user requirements; and
every solution satisfying the problem's requirements satisfies each baseline
requirement — the essential name is represented by a matching solvable,
though when several essential versions exist not every essential package
itself appears. -/
theorem essential_seeding_spec (pre : String) (sets : List (List Package))
    (i : UniverseIndex) (h : buildIndex pre sets = some i) :
    (∀ r ∈ i.required, ∃ n e, lookupName i.names n = some e ∧ e.required ≠ [] ∧
        r = pinRequirement i n) ∧
      (∀ reqs, problemRequirements i reqs =
        reqs.map (internUserRequirement i) ++ i.required) ∧
      (∀ reqs sol, solutionSatisfies i (problemRequirements i reqs) sol →
        ∀ r ∈ i.required, reqSatisfied i sol r) := by
  refine ⟨?_, fun reqs => rfl, fun reqs sol hsol r hr =>
    hsol r (List.mem_append_right _ hr)⟩
  simp only [buildIndex, Option.map_eq_some'] at h
  obtain ⟨st, hst, hi⟩ := h
  have hinv := ingestSets_preserves sets 0 _ st hst (by intro n hn; simp at hn)
  intro r hr
  have hreq : i.required = st.2.map (pinRequirement st.1) := by rw [← hi]
  rw [hreq] at hr
  rcases List.mem_map.mp hr with ⟨n, hn, rfl⟩
  obtain ⟨e, he, hne⟩ := hinv n hn
  refine ⟨n, e, ?_, hne, ?_⟩
  · rw [← hi]
    exact he
  · rw [← hi]
    rfl

/-- C4 (amended): when interning a package's own dependency constraint, an
absent arch qualifier defaults to the owning solvable's arch and the literal
qualifier `"any"` (case-insensitively) maps to `ArchId::Any`, but any other
explicit arch qualifier also resolves to the owning solvable's arch — it is
not interned via the archlist. -/
theorem dependency_arch_default_spec (i : UniverseIndex) (id : SolvableId)
    (dep : Constraint) :
    (dep.arch = none →
      (addSinglePackageDependency i id dep).arch = (solvableOf i id).arch) ∧
    (∀ a, dep.arch = some a → lowerStr a = "any" →
      (addSinglePackageDependency i id dep).arch = ArchId.any) ∧
    (∀ a, dep.arch = some a → lowerStr a ≠ "any" →
      (addSinglePackageDependency i id dep).arch = (solvableOf i id).arch) := by
  refine ⟨?_, ?_, ?_⟩
  · intro h
    unfold addSinglePackageDependency
    rw [h]
  · intro a h hl
    unfold addSinglePackageDependency
    rw [h]
    simp [hl]
  · intro a h hl
    unfold addSinglePackageDependency
    rw [h]
    simp [hl]

/-- C2 counterexample: with two essential versions of `base` (solvables 0 and
1), the baseline requirement is a union of exact pins; the solution `[0]`
satisfies every requirement of the empty problem under the solver contract,
yet solvable 1 — a package marked essential — does not appear in it. -/
theorem essential_seeding_counterexample :
    (exC2Idx.solvables.getD 1 default).package.essential = true ∧
      solutionSatisfies exC2Idx (problemRequirements exC2Idx []) [0] ∧
      (1 : SolvableId) ∉ ([0] : List SolvableId) := by
  refine ⟨by decide, by decide, by decide⟩

/-- C2 witness: the amended claim instantiated at the two-essential-versions
universe. -/
theorem essential_seeding_spec_witness :
    buildIndex "amd64" [[pkgBase1], [pkgBase2]] = some exC2Idx ∧
      ((∀ r ∈ exC2Idx.required, ∃ n e, lookupName exC2Idx.names n = some e ∧
          e.required ≠ [] ∧ r = pinRequirement exC2Idx n) ∧
        (∀ reqs, problemRequirements exC2Idx reqs =
          reqs.map (internUserRequirement exC2Idx) ++ exC2Idx.required) ∧
        (∀ reqs sol,
          solutionSatisfies exC2Idx (problemRequirements exC2Idx reqs) sol →
          ∀ r ∈ exC2Idx.required, reqSatisfied exC2Idx sol r)) :=
  ⟨by decide, essential_seeding_spec "amd64" [[pkgBase1], [pkgBase2]] exC2Idx (by decide)⟩

/-- C4 counterexample: the source resolves the explicit qualifier `"i386"` on
a dependency of an amd64 package to the owning solvable's arch `amd64`, not to
the archlist id of `"i386"` as the claim states. -/
theorem dependency_arch_counterexample :
    (addSinglePackageDependency exIdx 0 exC4Dep).arch = ArchId.arch "amd64" ∧
      claimC4Arch (solvableOf exIdx 0).arch exC4Dep.arch = ArchId.arch "i386" ∧
      (addSinglePackageDependency exIdx 0 exC4Dep).arch ≠
        claimC4Arch (solvableOf exIdx 0).arch exC4Dep.arch := by
  refine ⟨by decide, by decide, by decide⟩

/-- C4 witness: the three arch-resolution cases of the amended claim at
concrete dependencies of the amd64 package `a`. -/
theorem dependency_arch_default_spec_witness :
    ((addSinglePackageDependency exIdx 0
        { arch := none, name := "b", range := .all }).arch =
      (solvableOf exIdx 0).arch) ∧
    ((addSinglePackageDependency exIdx 0
        { arch := some "Any", name := "b", range := .all }).arch = ArchId.any) ∧
    ((addSinglePackageDependency exIdx 0 exC4Dep).arch = (solvableOf exIdx 0).arch) :=
  ⟨(dependency_arch_default_spec exIdx 0 { arch := none, name := "b", range := .all }).1
      rfl,
   (dependency_arch_default_spec exIdx 0
      { arch := some "Any", name := "b", range := .all }).2.1 "Any" rfl (by decide),
   (dependency_arch_default_spec exIdx 0 exC4Dep).2.2 "i386" rfl (by decide)⟩

/-- C5 witness: a fully parsing solvable gets `Known` dependencies in the
claimed shape, and the parse-erroneous `pkgE` gets `Unknown`. -/
theorem dependencies_spec_witness :
    (addPackageDependencies exIdx 0 =
      .known
        (((solvableOf exIdx 0).package.preDepends ++
            (solvableOf exIdx 0).package.depends).filterMap
          (fun d => (Parsed.toOption d).map (internPackageRequirement exIdx 0)))
        (((solvableOf exIdx 0).package.conflicts ++
            (solvableOf exIdx 0).package.breaks).filterMap
          (fun c => (Parsed.toOption c).map (addSinglePackageDependency exIdx 0)))) ∧
      (∃ r, addPackageDependencies exC5Idx 0 = .unknown r) :=
  ⟨(dependencies_spec exIdx 0).1 (by decide) (by decide),
   (dependencies_spec exC5Idx 0).2
     (Or.inl ⟨Parsed.err "bad dependency", by decide, rfl⟩)⟩

/-- C6 witness: the dependency graph of the two-package solution has the one
edge `0 → 1`, whose endpoints are solution members and which is no
self-loop. -/
theorem dependency_graph_edge_spec_witness :
    depEdges exIdx [0, 1] = some [(0, 1)] ∧
      ∀ e ∈ ([(0, 1)] : List (SolvableId × SolvableId)),
        e.1 ∈ ([0, 1] : List SolvableId) ∧ e.2 ∈ ([0, 1] : List SolvableId) ∧
          e.1 ≠ e.2 :=
  ⟨by decide, dependency_graph_edge_spec exIdx [0, 1] [(0, 1)] (by decide)⟩

/-- C3 witness: for the edge `0 → 1` with the Kosaraju output `[[1], [0]]`,
the components are consecutive in the flattened order and the dependency `1`
precedes the dependent `0`. -/
theorem sort_solution_order_spec_witness :
    depEdges exIdx [0, 1] = some [(0, 1)] ∧
      IsKosarajuOutput [(0, 1)] [[1], [0]] ∧
      ((∀ c ∈ ([[1], [0]] : List (List SolvableId)),
          ∃ l₁ l₂, ([[1], [0]] : List (List SolvableId)).flatten = l₁ ++ c ++ l₂) ∧
        ∀ a b, (a, b) ∈ ([(0, 1)] : List (SolvableId × SolvableId)) →
          ¬ reachable [(0, 1)] b a →
          List.Sublist [b, a] ([[1], [0]] : List (List SolvableId)).flatten) ∧
      List.Sublist [1, 0] ([[1], [0]] : List (List SolvableId)).flatten :=
  ⟨by decide, by decide,
   sort_solution_order_spec exIdx [0, 1] [(0, 1)] [[1], [0]] (by decide) (by decide),
   (sort_solution_order_spec exIdx [0, 1] [(0, 1)] [[1], [0]] (by decide)
       (by decide)).2 0 1 (by decide) (by decide)⟩

/-- C9 witness: the one-package solution `[0]` yields an empty edge list and
an empty Kosaraju output, so `sort_solution` returns nothing — not a
permutation of the input — and the node characterization holds. -/
theorem dependency_graph_node_spec_witness :
    depEdges exC9Idx [0] = some [] ∧
      IsKosarajuOutput [] [] ∧
      ¬ (([] : List (List SolvableId)).flatten.Perm [0]) ∧
      ((∀ s, s ∈ graphNodes [] ↔ s ∈ ([0] : List SolvableId) ∧
          ∃ e ∈ ([] : List (SolvableId × SolvableId)), s = e.1 ∨ s = e.2) ∧
        (([] : List (List SolvableId)).flatten.Perm (graphNodes []) ∧
          ∀ s ∈ ([0] : List SolvableId),
            (∀ e ∈ ([] : List (SolvableId × SolvableId)), s ≠ e.1 ∧ s ≠ e.2) →
            s ∉ ([] : List (List SolvableId)).flatten)) :=
  ⟨by decide, by decide, by decide,
   dependency_graph_node_spec exC9Idx [0] [] [] (by decide) (by decide)⟩

/-- C8 witness: re-sorting the output `[1, 0]` of the two-package example
reproduces the same multiset. -/
theorem sort_solution_idempotent_spec_witness :
    depEdges exIdx [0, 1] = some [(0, 1)] ∧
      IsKosarajuOutput [(0, 1)] [[1], [0]] ∧
      (∃ es2, depEdges exIdx ([[1], [0]] : List (List SolvableId)).flatten = some es2 ∧
        ∀ sccs2, IsKosarajuOutput es2 sccs2 →
          (sccs2.flatten : Multiset SolvableId) =
            (([[1], [0]] : List (List SolvableId)).flatten : Multiset SolvableId)) :=
  ⟨by decide, by decide,
   sort_solution_idempotent_spec exIdx [0, 1] [(0, 1)] [[1], [0]] (by decide) (by decide)⟩

/-- C7 witness: sorting the two-package list puts the name-ascending pair in
order and the theorem's conclusions hold at it. -/
theorem sort_candidates_spec_witness :
    sortCandidates exIdx [1, 0] = [0, 1] ∧
      ((sortCandidates exIdx [1, 0]).Perm [1, 0] ∧
        (sortCandidates exIdx [1, 0]).Pairwise (claimC7Le exIdx) ∧
        ∀ (h : sortCandidates exIdx [1, 0] ≠ []) (x : SolvableId),
          x ∈ sortCandidates exIdx [1, 0] →
          claimC7Le exIdx x ((sortCandidates exIdx [1, 0]).getLast h)) :=
  ⟨by decide, sort_candidates_spec exIdx [1, 0]⟩

/-- C10 witness: the candidate `p`, whose only `Provides` entry fails to
parse, behaves as if it provided nothing, and still matches the version set
over its own name. -/
theorem filter_candidates_parse_error_spec_witness :
    (filterCandidates (scrubProvides exC10Idx) [0] exC10Vs false =
        filterCandidates exC10Idx [0] exC10Vs false ∧
      ∀ sid ∈ ([0] : List SolvableId),
        (∀ e ∈ (solvableOf exC10Idx sid).package.provides, Parsed.toOption e = none) →
        exC10Vs.selfref ≠ some sid →
        (solvableOf exC10Idx sid).arch.satisfies exC10Vs.arch = true →
        ((solvableOf exC10Idx sid).name == exC10Vs.name &&
          versionSatisfies (solvableOf exC10Idx sid).package.version exC10Vs.range) = true →
        sid ∈ filterCandidates exC10Idx [0] exC10Vs false) ∧
      (0 : SolvableId) ∈ filterCandidates exC10Idx [0] exC10Vs false :=
  ⟨filter_candidates_parse_error_spec exC10Idx [0] exC10Vs false,
   (filter_candidates_parse_error_spec exC10Idx [0] exC10Vs false).2 0 (by decide)
     (by decide) (by decide) (by decide) (by decide)⟩
